import Mathlib

set_option maxRecDepth 40000

/-!
Shallow embedding of the core of `src/app.py` (a group expense-splitting
application) and verification of its specification.

The embedded parts are:
* `FinanceEngine.distribute_amount` — weighted allocation of an integer
  amount of cents.  The share computation
  `int((total_cents * w) / total_weight)` uses Python float true division,
  so it is embedded through `pyIntDiv`, a model of CPython's correctly
  rounded binary64 quotient of two non-negative ints followed by `int`
  truncation (with `none` for the `OverflowError` on an infinite
  quotient); the remainder loop's possible `IndexError` is the `none`
  result of `distribute_amount`.  The ideal floored shares appear as
  `provisionalShares`, proved to coincide with the float shares whenever
  every product `total_cents * w` is at most `2 ^ 52`
  (`pyIntDiv_eq_div`);
* `FinanceEngine.simplify_debts` — the greedy two-heap debt-settlement
  algorithm (here `simplify_debts`; the `heapq` heaps are modelled as
  lists ordered by `heapPush`, whose head is the heap minimum — all heap
  elements are distinct `(amount, person)` pairs, so popping the unique
  minimum is exactly `heapq.heappop`'s observable behaviour);
* `ExpenseService.get_balances` — per-user accumulation of
  `paid_amount - owed_amount` over the splits of the active expenses
  (the `defaultdict(int)` is modelled as an insertion-ordered
  association list);
* the balance guard of `ExpenseService.create_expense`.

Python integers are arbitrary precision, so amounts are `Int` (weights,
which the spec declares non-negative, are `Nat`).
-/

/-- Round the non-negative rational `num / den` (`den > 0`) to the
nearest integer, ties to even — the rounding CPython applies to the
scaled significand when producing the correctly rounded binary64
quotient of two ints. -/
def roundHalfEven (num den : Nat) : Nat :=
  let t := num / den
  let r := num % den
  if 2 * r < den then t
  else if den < 2 * r then t + 1
  else if t % 2 = 0 then t else t + 1

/-- Starting from `j` and taking at most `fuel` upward steps, find the
largest `j'` with `2 ^ j' * b ≤ x`: locates the binade of the quotient
`x / b` (see `findExp_spec`). -/
def findExp (x b : Nat) : Nat → Nat → Nat
  | j, 0 => j
  | j, fuel + 1 => if 2 ^ (j + 1) * b ≤ x then findExp x b (j + 1) fuel else j

/-- Truncation of the correctly rounded quotient once its binade is
known: `j = e + 52` where `2 ^ e ≤ a / b < 2 ^ (e + 1)`.  The
significand `n = roundHalfEven (2 ^ 104 * a) (2 ^ j * b)` is the integer
nearest to `(a / b) * 2 ^ (52 - e)`, so the rounded double is
`n * 2 ^ (j - 104)` with `n ∈ [2 ^ 52, 2 ^ 53]` (`n = 2 ^ 53` lands
exactly on the base of the next binade, so no fidelity is lost there).
`j = 1075` with `n = 2 ^ 53` is `2 ^ 1024`, which overflows to infinity
and makes `int()` raise (`none`).  Truncation toward zero of a
non-negative value is floor: `n / 2 ^ (104 - j)` for `j ≤ 104`, and the
exact integer `n * 2 ^ (j - 104)` above that. -/
def pyIntDivCore (a b j : Nat) : Option Nat :=
  let n := roundHalfEven (2 ^ 104 * a) (2 ^ j * b)
  if j = 1075 ∧ n = 2 ^ 53 then none
  else if j ≤ 104 then some (n / 2 ^ (104 - j))
  else some (n * 2 ^ (j - 104))

/-- `int(a / b)` in Python for ints `a ≥ 0`, `b > 0`: CPython's
`int.__truediv__` returns the binary64 double nearest to the exact
quotient (ties to even) and `int` truncates it toward zero, raising
`OverflowError` on an infinite quotient (`none`).  Quotients below
`2 ^ (-52)` round below 1 and truncate to 0 (this also covers the
subnormal range, which only differs from the normal grid below 1 where
truncation is 0 either way); quotients at or above `2 ^ 1024` round to
infinity.  Otherwise the binade exponent is located by `findExp` and the
quotient rounded and truncated by `pyIntDivCore`. -/
def pyIntDiv (a b : Nat) : Option Nat :=
  if a = 0 then some 0
  else if 2 ^ 52 * a < b then some 0
  else if 2 ^ 1024 * b ≤ a then none
  else pyIntDivCore a b (findExp (2 ^ 52 * a) b 0 1075)

/-- The ideal floored shares `(total_cents * w) / total_weight`.  This is
the value `share = int((total_cents * w) / total_weight)` at line 105 of
`src/app.py` produces whenever the double rounding cannot cross an
integer, proved for `total_cents * w ≤ 2 ^ 52` in `pyIntDiv_eq_div`; it
is the reference value used in the statements below.  Beyond that range
the program's float shares can differ (see the C2/C4 counterexamples). -/
def provisionalShares (total_cents : Nat) (weights : List Nat) : List Nat :=
  weights.map (fun w => total_cents * w / weights.sum)

/-- The remainder loop of `FinanceEngine.distribute_amount`:
`for i in range(remainder): amounts[i] += 1` — add one unit to each of
the first `r` positions.  `distribute_amount` only applies this after
checking `r ≤ length` (the loop's `IndexError` on `r > length` is its
`none` result), and for `r ≤ length` this function is exactly the Python
loop. -/
def addRemainder : Nat → List Nat → List Nat
  | 0, l => l
  | _ + 1, [] => []
  | r + 1, a :: l => (a + 1) :: addRemainder r l

/-- The share loop of `FinanceEngine.distribute_amount`:
`share = int((total_cents * w) / total_weight)` for each weight in
order, with an `OverflowError` in any share propagated (`none`). -/
def pyShares (total_cents total_weight : Nat) : List Nat → Option (List Nat)
  | [] => some []
  | w :: ws =>
    match pyIntDiv (total_cents * w) total_weight,
        pyShares total_cents total_weight ws with
    | some s, some rest => some (s :: rest)
    | _, _ => none

/-- `FinanceEngine.distribute_amount(total_cents, weights)` from
`src/app.py`.  If the total weight is 0, return all zeros (before any
division).  Otherwise compute the truncated float shares (`pyShares`);
`remainder = total_cents - current_sum` is a Python int that is negative
exactly when this `Nat` subtraction is 0, and `range` of a negative
number is empty, so the `Nat` remainder is faithful; when the remainder
exceeds the number of weights the loop's `amounts[i] += 1` raises
`IndexError` (`none`). -/
def distribute_amount (total_cents : Nat) (weights : List Nat) : Option (List Nat) :=
  if weights.sum = 0 then some (List.replicate weights.length 0)
  else
    (pyShares total_cents weights.sum weights).bind (fun amounts =>
      if weights.length < total_cents - amounts.sum then none
      else some (addRemainder (total_cents - amounts.sum) amounts))

/-- A settlement transaction `{"from": debtor, "to": creditor, "amount": amount}`
as appended by `FinanceEngine.simplify_debts`. -/
structure Tx where
  from_ : String
  to_ : String
  amount : Int
deriving DecidableEq, Repr

/-- Insert an `(amount, person)` pair into a heap, modelled as a list kept
sorted by the Python tuple order (amount first, then person).  The head of
the list is the heap minimum, so popping the head is `heapq.heappop`. -/
def heapPush (x : Int × String) : List (Int × String) → List (Int × String)
  | [] => [x]
  | y :: l =>
    if x.1 < y.1 ∨ (x.1 = y.1 ∧ ¬ y.2 < x.2) then x :: y :: l
    else y :: heapPush x l

/-- One step of the partition loop of `FinanceEngine.simplify_debts`:
`if amount < -1: heappush(debtors, (amount, person))
 elif amount > 1: heappush(creditors, (-amount, person))`. -/
def pushBalance (h : List (Int × String) × List (Int × String)) (pa : String × Int) :
    List (Int × String) × List (Int × String) :=
  if pa.2 < -1 then (heapPush (pa.2, pa.1) h.1, h.2)
  else if 1 < pa.2 then (h.1, heapPush (-pa.2, pa.1) h.2)
  else h

/-- The partition phase of `FinanceEngine.simplify_debts`: iterate over the
balance mapping (a Python dict, i.e. an insertion-ordered association
list) and build the debtors and creditors heaps. -/
def buildHeaps (net_balances : List (String × Int)) :
    List (Int × String) × List (Int × String) :=
  net_balances.foldl pushBalance ([], [])

/-- The matching loop of `FinanceEngine.simplify_debts`.  Each iteration
pops the extreme entry of each heap, emits a transaction for the smaller
magnitude, and pushes a party back only while its residual is below `-1`.
The `while debtors and creditors` loop is modelled with a fuel parameter;
`simplify_debts` supplies fuel equal to the combined heap size, which is
sufficient because every iteration settles at least one party
(see `C5_queue_shrinks_and_loop_completes`). -/
def simplifyLoop : Nat → List (Int × String) → List (Int × String) → List Tx
  | 0, _, _ => []
  | _ + 1, [], _ => []
  | _ + 1, _ :: _, [] => []
  | fuel + 1, (debt_amt, debtor) :: ds, (credit_amt, creditor) :: cs =>
    let amount := min (-debt_amt) (-credit_amt)
    let remain_debt := debt_amt + amount
    let remain_credit := credit_amt + amount
    let ds1 := if remain_debt < -1 then heapPush (remain_debt, debtor) ds else ds
    let cs1 := if remain_credit < -1 then heapPush (remain_credit, creditor) cs else cs
    { from_ := debtor, to_ := creditor, amount := amount } :: simplifyLoop fuel ds1 cs1

/-- `FinanceEngine.simplify_debts(net_balances)` from `src/app.py`. -/
def simplify_debts (net_balances : List (String × Int)) : List Tx :=
  simplifyLoop
    ((buildHeaps net_balances).1.length + (buildHeaps net_balances).2.length)
    (buildHeaps net_balances).1 (buildHeaps net_balances).2

/-- Look a participant's balance up in the balance mapping (missing
participants have balance 0, as with `defaultdict(int)` /
`balances.get(name, 0)` in the source). -/
def balanceOf (net_balances : List (String × Int)) (p : String) : Int :=
  (net_balances.lookup p).getD 0

/-- Apply one settlement transaction to a balance assignment: the debtor's
balance increases by `amount`, the creditor's decreases by `amount`. -/
def applyTx (f : String → Int) (t : Tx) : String → Int :=
  fun p => f p + (if p = t.from_ then t.amount else 0) - (if p = t.to_ then t.amount else 0)

/-- Apply a list of settlement transactions in order. -/
def applyTxs (f : String → Int) : List Tx → String → Int
  | [] => f
  | t :: ts => applyTxs (applyTx f t) ts

/-- One row of the `splits` table as consumed by
`ExpenseService.get_balances`: a user with a paid and an owed amount in
cents. -/
structure Split where
  user : String
  paid_amount : Int
  owed_amount : Int
deriving DecidableEq, Repr

/-- `balances[user] += delta` on a `defaultdict(int)`, modelled as an
insertion-ordered association list. -/
def addToBalances : List (String × Int) → String → Int → List (String × Int)
  | [], u, d => [(u, d)]
  | (p, v) :: rest, u, d =>
    if p = u then (p, v + d) :: rest else (p, v) :: addToBalances rest u d

/-- The inner statement of `ExpenseService.get_balances`:
`balances[s.user.username] += (s.paid_amount - s.owed_amount)`. -/
def applySplit (bal : List (String × Int)) (s : Split) : List (String × Int) :=
  addToBalances bal s.user (s.paid_amount - s.owed_amount)

/-- `ExpenseService.get_balances` from `src/app.py`, applied to the list of
active expense records (each record being its list of splits): accumulate
`paid_amount - owed_amount` per user over all splits of all records. -/
def get_balances (expenses : List (List Split)) : List (String × Int) :=
  expenses.foldl (fun bal splits => splits.foldl applySplit bal) []

/-- The balance guard and result of `ExpenseService.create_expense` from
`src/app.py`: the record is rejected (returning `(False, "账目不平")`,
persisting nothing — the guard runs before any session work) exactly when
the payer-split total or the ower-split total differs from `total_cents`
by more than 1; otherwise the record is persisted and the call returns
`(True, "成功")`. -/
def create_expense (total_cents : Int) (payer_splits ower_splits : List (String × Int)) :
    Bool × String :=
  if 1 < ((payer_splits.map Prod.snd).sum - total_cents).natAbs ∨
      1 < ((ower_splits.map Prod.snd).sum - total_cents).natAbs then
    (false, "账目不平")
  else
    (true, "成功")

/-! ### Helper lemmas: allocation -/

theorem addRemainder_sum (r : Nat) (l : List Nat) :
    (addRemainder r l).sum = l.sum + min r l.length := by
  induction l generalizing r with
  | nil => cases r <;> simp [addRemainder]
  | cons a l ih =>
    cases r with
    | zero => simp [addRemainder]
    | succ r =>
      simp only [addRemainder, List.sum_cons, ih, List.length_cons]
      omega

theorem addRemainder_get? (r : Nat) (l : List Nat) (i : Nat) :
    (addRemainder r l).get? i = (l.get? i).map (fun a => if i < r then a + 1 else a) := by
  induction l generalizing r i with
  | nil => cases r <;> simp [addRemainder]
  | cons a l ih =>
    cases r with
    | zero =>
      simp only [addRemainder, Nat.not_lt_zero, if_false]
      cases (a :: l).get? i <;> simp
    | succ r =>
      cases i with
      | zero => simp [addRemainder]
      | succ i =>
        simp only [addRemainder, List.get?_cons_succ, ih]
        cases l.get? i <;> simp

theorem shares_mul_le (T W : Nat) (l : List Nat) :
    (l.map (fun w => T * w / W)).sum * W ≤ T * l.sum := by
  induction l with
  | nil => simp
  | cons a l ih =>
    have h1 : T * a / W * W ≤ T * a := Nat.div_mul_le_self _ _
    simp only [List.map_cons, List.sum_cons, Nat.add_mul, Nat.mul_add]
    omega

theorem div_mod_sum_identity (T W : Nat) (l : List Nat) :
    (l.map (fun w => T * w / W)).sum * W + (l.map (fun w => T * w % W)).sum = T * l.sum := by
  induction l with
  | nil => simp
  | cons a l ih =>
    simp only [List.map_cons, List.sum_cons]
    have h := Nat.div_add_mod (T * a) W
    calc (T * a / W + (l.map (fun w => T * w / W)).sum) * W
          + (T * a % W + (l.map (fun w => T * w % W)).sum)
        = (W * (T * a / W) + T * a % W)
          + ((l.map (fun w => T * w / W)).sum * W + (l.map (fun w => T * w % W)).sum) := by
          ring
      _ = T * a + T * l.sum := by rw [h, ih]
      _ = T * (a + l.sum) := by ring

theorem mods_sum_add_length_le (T W : Nat) (hW : 0 < W) (l : List Nat) :
    (l.map (fun w => T * w % W)).sum + l.length ≤ l.length * W := by
  induction l with
  | nil => simp
  | cons a l ih =>
    have h1 : T * a % W < W := Nat.mod_lt _ hW
    simp only [List.map_cons, List.sum_cons, List.length_cons, Nat.succ_mul]
    omega

theorem shares_sum_le (T : Nat) (l : List Nat) (hW : 0 < l.sum) :
    (provisionalShares T l).sum ≤ T := by
  have h := shares_mul_le T l.sum l
  have h2 : (provisionalShares T l).sum * l.sum ≤ T * l.sum := h
  exact Nat.le_of_mul_le_mul_right h2 hW

theorem shares_sum_lower (T : Nat) (l : List Nat) (hW : 0 < l.sum) :
    T < (provisionalShares T l).sum + l.length := by
  have hid : (provisionalShares T l).sum * l.sum + (l.map (fun w => T * w % l.sum)).sum
      = T * l.sum := div_mod_sum_identity T l.sum l
  have hm := mods_sum_add_length_le T l.sum hW l
  have hlen : 1 ≤ l.length := by
    cases l with
    | nil => simp at hW
    | cons a l => simp
  have h3 : T * l.sum < ((provisionalShares T l).sum + l.length) * l.sum := by
    have hmods : (l.map (fun w => T * w % l.sum)).sum < l.length * l.sum := by omega
    calc T * l.sum
        = (provisionalShares T l).sum * l.sum + (l.map (fun w => T * w % l.sum)).sum := by
          rw [hid]
      _ < (provisionalShares T l).sum * l.sum + l.length * l.sum := by omega
      _ = ((provisionalShares T l).sum + l.length) * l.sum := by ring
  exact lt_of_mul_lt_mul_right h3 (Nat.zero_le _)

theorem provisionalShares_length (T : Nat) (l : List Nat) :
    (provisionalShares T l).length = l.length := by
  simp [provisionalShares]

/-! ### Helper lemmas: the float share computation -/

theorem roundHalfEven_bounds (num den : Nat) (hden : 0 < den) :
    2 * num ≤ 2 * roundHalfEven num den * den + den ∧
    2 * roundHalfEven num den * den ≤ 2 * num + den := by
  have h2 : num % den < den := Nat.mod_lt _ hden
  have e : 2 * (num / den) * den + 2 * (num % den) = 2 * num := by
    have h1 : num / den * den + num % den = num := Nat.div_add_mod' num den
    calc 2 * (num / den) * den + 2 * (num % den)
        = 2 * (num / den * den + num % den) := by ring
      _ = 2 * num := by rw [h1]
  simp only [roundHalfEven]
  generalize hq : num / den = q at e ⊢
  generalize hr : num % den = r at e h2 ⊢
  split
  next hc =>
    generalize hP : 2 * q * den = P at e ⊢
    omega
  next hc1 =>
    split
    next hc2 =>
      have e2 : 2 * (q + 1) * den = 2 * q * den + 2 * den := by ring
      rw [e2]
      generalize hP : 2 * q * den = P at e ⊢
      omega
    next hc2 =>
      split
      next hc3 =>
        generalize hP : 2 * q * den = P at e ⊢
        omega
      next hc3 =>
        have e2 : 2 * (q + 1) * den = 2 * q * den + 2 * den := by ring
        rw [e2]
        generalize hP : 2 * q * den = P at e ⊢
        omega

theorem findExp_spec (x b : Nat) :
    ∀ (fuel j : Nat), 2 ^ j * b ≤ x → x < 2 ^ (j + fuel + 1) * b →
      2 ^ findExp x b j fuel * b ≤ x ∧ x < 2 ^ (findExp x b j fuel + 1) * b := by
  intro fuel
  induction fuel with
  | zero =>
    intro j h1 h2
    simp only [findExp]
    exact ⟨h1, by simpa using h2⟩
  | succ fuel ih =>
    intro j h1 h2
    simp only [findExp]
    split
    · have he : j + 1 + fuel + 1 = j + (fuel + 1) + 1 := by omega
      refine ih (j + 1) (by assumption) ?_
      rw [he]
      exact h2
    · exact ⟨h1, Nat.not_le.mp (by assumption)⟩

theorem trunc_round_eq_div (a b j n : Nat) (hb : 0 < b) (hj104 : j ≤ 104)
    (hD : 2 ^ j * b ≤ 2 ^ 104)
    (hup2 : 2 * n * (2 ^ j * b) ≤ 2 * (2 ^ 104 * a) + 2 ^ j * b)
    (hlo2 : 2 * (2 ^ 104 * a) ≤ 2 * n * (2 ^ j * b) + 2 ^ j * b) :
    n / 2 ^ (104 - j) = a / b := by
  have hpow : (2 : Nat) ^ (104 - j) * 2 ^ j = 2 ^ 104 := by
    rw [← pow_add, Nat.sub_add_cancel hj104]
  have hkba : a / b * b ≤ a := Nat.div_mul_le_self a b
  have hakb : a + 1 ≤ (a / b + 1) * b := by
    have h1 := Nat.div_add_mod a b
    have h2 : a % b < b := Nat.mod_lt _ hb
    have h3 : (a / b + 1) * b = b * (a / b) + b := by ring
    nlinarith [h1, h2, h3]
  have hlow : a / b * 2 ^ (104 - j) ≤ n := by
    have h1 : 2 * (a / b * 2 ^ (104 - j)) * (2 ^ j * b) ≤ (2 * n + 1) * (2 ^ j * b) := by
      have h2 : (2 : Nat) * (2 ^ 104 * (a / b * b)) ≤ 2 * (2 ^ 104 * a) :=
        Nat.mul_le_mul_left 2 (Nat.mul_le_mul_left _ hkba)
      calc 2 * (a / b * 2 ^ (104 - j)) * (2 ^ j * b)
          = 2 * (2 ^ 104 * (a / b * b)) := by rw [← hpow]; ring
        _ ≤ 2 * (2 ^ 104 * a) := h2
        _ ≤ 2 * n * (2 ^ j * b) + 2 ^ j * b := hlo2
        _ = (2 * n + 1) * (2 ^ j * b) := by ring
    have h3 : 2 * (a / b * 2 ^ (104 - j)) ≤ 2 * n + 1 :=
      Nat.le_of_mul_le_mul_right h1 (by positivity)
    have h4 : 2 * (a / b * 2 ^ (104 - j)) ≤ 2 * n + 1 := h3
    generalize hX : a / b * 2 ^ (104 - j) = X at h4 ⊢
    omega
  have hup : n < (a / b + 1) * 2 ^ (104 - j) := by
    have hpos : (0 : Nat) < 2 ^ 104 := by positivity
    have h1 : 2 * n * (2 ^ j * b) < 2 * ((a / b + 1) * 2 ^ (104 - j)) * (2 ^ j * b) := by
      have h2 : (2 : Nat) ^ 104 * (a + 1) ≤ 2 ^ 104 * ((a / b + 1) * b) :=
        Nat.mul_le_mul_left _ hakb
      have h2' : 2 * (2 ^ 104 * a) + 2 * 2 ^ 104 ≤ 2 * (2 ^ 104 * ((a / b + 1) * b)) := by
        have h2a : 2 * (2 ^ 104 * (a + 1)) ≤ 2 * (2 ^ 104 * ((a / b + 1) * b)) :=
          Nat.mul_le_mul_left 2 h2
        have h2b : 2 * (2 ^ 104 * (a + 1)) = 2 * (2 ^ 104 * a) + 2 * 2 ^ 104 := by ring
        linarith
      calc 2 * n * (2 ^ j * b)
          ≤ 2 * (2 ^ 104 * a) + 2 ^ j * b := hup2
        _ ≤ 2 * (2 ^ 104 * a) + 2 ^ 104 := by linarith
        _ < 2 * (2 ^ 104 * a) + 2 * 2 ^ 104 := by linarith
        _ ≤ 2 * (2 ^ 104 * ((a / b + 1) * b)) := h2'
        _ = 2 * ((a / b + 1) * 2 ^ (104 - j)) * (2 ^ j * b) := by rw [← hpow]; ring
    have h3 : 2 * n < 2 * ((a / b + 1) * 2 ^ (104 - j)) :=
      lt_of_mul_lt_mul_right h1 (Nat.zero_le _)
    generalize hX : (a / b + 1) * 2 ^ (104 - j) = X at h3 ⊢
    omega
  exact Nat.div_eq_of_lt_le hlow hup

theorem pyIntDivCore_eq (a b j : Nat) (hb : 0 < b) (ha : a ≤ 2 ^ 52)
    (hj1 : 2 ^ j * b ≤ 2 ^ 52 * a) (_hj2 : 2 ^ 52 * a < 2 ^ (j + 1) * b) :
    pyIntDivCore a b j = some (a / b) := by
  have hD : 2 ^ j * b ≤ 2 ^ 104 := by
    refine le_trans hj1 ?_
    calc (2 : Nat) ^ 52 * a ≤ 2 ^ 52 * 2 ^ 52 := Nat.mul_le_mul_left _ ha
      _ = 2 ^ 104 := by rw [← pow_add]
  have hj104 : j ≤ 104 := by
    by_contra hc
    push_neg at hc
    have h1 : (2 : Nat) ^ 105 ≤ 2 ^ j := Nat.pow_le_pow_right (by norm_num) hc
    have h2 : (2 : Nat) ^ j ≤ 2 ^ j * b := Nat.le_mul_of_pos_right _ hb
    have h3 : (2 : Nat) ^ 105 ≤ 2 ^ 104 := le_trans h1 (le_trans h2 hD)
    have h4 : (2 : Nat) ^ 104 < 2 ^ 105 := Nat.pow_lt_pow_right (by norm_num) (by omega)
    omega
  have hbounds := roundHalfEven_bounds (2 ^ 104 * a) (2 ^ j * b) (by positivity)
  simp only [pyIntDivCore]
  rw [if_neg (by rintro ⟨hj', _⟩; omega), if_pos hj104]
  exact congrArg some (trunc_round_eq_div a b j _ hb hj104 hD hbounds.2 hbounds.1)

theorem pyIntDiv_eq_div (a b : Nat) (hb : 0 < b) (ha : a ≤ 2 ^ 52) :
    pyIntDiv a b = some (a / b) := by
  unfold pyIntDiv
  by_cases ha0 : a = 0
  · subst ha0
    simp
  rw [if_neg ha0]
  by_cases hsmall : 2 ^ 52 * a < b
  · rw [if_pos hsmall]
    have hab : a < b := by
      have h1 : a ≤ 2 ^ 52 * a := Nat.le_mul_of_pos_left a (by positivity)
      omega
    rw [Nat.div_eq_of_lt hab]
  rw [if_neg hsmall]
  have hov : ¬ 2 ^ 1024 * b ≤ a := by
    intro hc
    have h1 : (2 : Nat) ^ 1024 * 1 ≤ 2 ^ 52 :=
      le_trans (Nat.mul_le_mul_left _ hb) (le_trans hc ha)
    have h2 : (2 : Nat) ^ 52 < 2 ^ 1024 := Nat.pow_lt_pow_right (by norm_num) (by norm_num)
    omega
  rw [if_neg hov]
  have hx1 : 2 ^ 0 * b ≤ 2 ^ 52 * a := by simpa using Nat.not_lt.mp hsmall
  have hx2 : 2 ^ 52 * a < 2 ^ (0 + 1075 + 1) * b := by
    have hlt : a < 2 ^ 1024 * b := Nat.not_le.mp hov
    calc (2 : Nat) ^ 52 * a < 2 ^ 52 * (2 ^ 1024 * b) :=
          mul_lt_mul_of_pos_left hlt (by positivity)
      _ = 2 ^ (0 + 1075 + 1) * b := by rw [← mul_assoc, ← pow_add]
  obtain ⟨hj1, hj2⟩ := findExp_spec (2 ^ 52 * a) b 1075 0 hx1 hx2
  exact pyIntDivCore_eq a b _ hb ha hj1 hj2

theorem pyShares_eq (T W : Nat) (hW : 0 < W) :
    ∀ l : List Nat, (∀ w ∈ l, T * w ≤ 2 ^ 52) →
      pyShares T W l = some (l.map (fun w => T * w / W)) := by
  intro l
  induction l with
  | nil => intro _; rfl
  | cons w ws ih =>
    intro h
    have h1 := pyIntDiv_eq_div (T * w) W hW (h w (List.mem_cons_self _ _))
    have h2 := ih (fun x hx => h x (List.mem_cons_of_mem _ hx))
    simp [pyShares, h1, h2]

theorem distribute_amount_of_bounded (T : Nat) (ws : List Nat) (h1 : 0 < ws.sum)
    (h2 : ∀ w ∈ ws, T * w ≤ 2 ^ 52) :
    distribute_amount T ws =
      some (addRemainder (T - (provisionalShares T ws).sum) (provisionalShares T ws)) := by
  have h3 := shares_sum_lower T ws h1
  unfold distribute_amount
  rw [if_neg (by omega), pyShares_eq T ws.sum h1 ws h2]
  have h4 : ¬ ws.length < T - (ws.map (fun w => T * w / ws.sum)).sum := by
    have h5 : (provisionalShares T ws).sum = (ws.map (fun w => T * w / ws.sum)).sum := rfl
    omega
  rw [Option.some_bind]
  rw [if_neg h4]
  rfl

/-! ### Helper lemmas: heaps and the partition phase -/

theorem heapPush_length (x : Int × String) (l : List (Int × String)) :
    (heapPush x l).length = l.length + 1 := by
  induction l with
  | nil => rfl
  | cons y l ih =>
    simp only [heapPush]
    split
    · simp
    · simp [ih]

theorem heapPush_perm (x : Int × String) (l : List (Int × String)) :
    List.Perm (heapPush x l) (x :: l) := by
  induction l with
  | nil => exact List.Perm.refl _
  | cons y l ih =>
    simp only [heapPush]
    split
    · exact List.Perm.refl _
    · exact (ih.cons y).trans (List.Perm.swap x y l)

theorem heapPush_mem {a x : Int × String} {l : List (Int × String)} :
    a ∈ heapPush x l ↔ a = x ∨ a ∈ l := by
  rw [(heapPush_perm x l).mem_iff]
  simp

theorem simplifyLoop_nil_left (fuel : Nat) (c : List (Int × String)) :
    simplifyLoop fuel [] c = [] := by
  cases fuel <;> rfl

theorem simplifyLoop_nil_right (fuel : Nat) (d : List (Int × String)) :
    simplifyLoop fuel d [] = [] := by
  cases fuel <;> cases d <;> rfl

theorem simplifyLoop_cons (fuel : Nat) (debt_amt credit_amt : Int)
    (debtor creditor : String) (ds cs : List (Int × String)) :
    simplifyLoop (fuel + 1) ((debt_amt, debtor) :: ds) ((credit_amt, creditor) :: cs) =
      { from_ := debtor, to_ := creditor, amount := min (-debt_amt) (-credit_amt) } ::
        simplifyLoop fuel
          (if debt_amt + min (-debt_amt) (-credit_amt) < -1 then
            heapPush (debt_amt + min (-debt_amt) (-credit_amt), debtor) ds else ds)
          (if credit_amt + min (-debt_amt) (-credit_amt) < -1 then
            heapPush (credit_amt + min (-debt_amt) (-credit_amt), creditor) cs else cs) :=
  rfl

theorem foldl_push_fst (bal : List (String × Int)) :
    ∀ d c : List (Int × String),
      List.Perm (bal.foldl pushBalance (d, c)).1
        (d ++ (bal.filter (fun pa => pa.2 < -1)).map (fun pa => (pa.2, pa.1))) := by
  induction bal with
  | nil => intro d c; simp
  | cons pa bal ih =>
    intro d c
    simp only [List.foldl_cons]
    by_cases h1 : pa.2 < -1
    · have hpb : pushBalance (d, c) pa = (heapPush (pa.2, pa.1) d, c) := by
        simp [pushBalance, h1]
      rw [hpb, List.filter_cons_of_pos (by simpa using h1), List.map_cons]
      exact (ih _ _).trans
        (((heapPush_perm _ _).append_right _).trans List.perm_middle.symm)
    · rw [List.filter_cons_of_neg (by simpa using h1)]
      by_cases h2 : 1 < pa.2
      · have hpb : pushBalance (d, c) pa = (d, heapPush (-pa.2, pa.1) c) := by
          simp [pushBalance, h1, h2]
        rw [hpb]
        exact ih _ _
      · have hpb : pushBalance (d, c) pa = (d, c) := by
          simp [pushBalance, h1, h2]
        rw [hpb]
        exact ih _ _

theorem foldl_push_snd (bal : List (String × Int)) :
    ∀ d c : List (Int × String),
      List.Perm (bal.foldl pushBalance (d, c)).2
        (c ++ (bal.filter (fun pa => 1 < pa.2)).map (fun pa => (-pa.2, pa.1))) := by
  induction bal with
  | nil => intro d c; simp
  | cons pa bal ih =>
    intro d c
    simp only [List.foldl_cons]
    by_cases h1 : pa.2 < -1
    · have hpb : pushBalance (d, c) pa = (heapPush (pa.2, pa.1) d, c) := by
        simp [pushBalance, h1]
      rw [hpb, List.filter_cons_of_neg (by simp; omega)]
      exact ih _ _
    · by_cases h2 : 1 < pa.2
      · have hpb : pushBalance (d, c) pa = (d, heapPush (-pa.2, pa.1) c) := by
          simp [pushBalance, h1, h2]
        rw [hpb, List.filter_cons_of_pos (by simpa using h2), List.map_cons]
        exact (ih _ _).trans
          (((heapPush_perm _ _).append_right _).trans List.perm_middle.symm)
      · have hpb : pushBalance (d, c) pa = (d, c) := by
          simp [pushBalance, h1, h2]
        rw [hpb, List.filter_cons_of_neg (by simpa using h2)]
        exact ih _ _

theorem buildHeaps_fst_perm (bal : List (String × Int)) :
    List.Perm (buildHeaps bal).1
      ((bal.filter (fun pa => pa.2 < -1)).map (fun pa => (pa.2, pa.1))) := by
  simpa using foldl_push_fst bal [] []

theorem buildHeaps_snd_perm (bal : List (String × Int)) :
    List.Perm (buildHeaps bal).2
      ((bal.filter (fun pa => 1 < pa.2)).map (fun pa => (-pa.2, pa.1))) := by
  simpa using foldl_push_snd bal [] []

theorem buildHeaps_fst_mem {bal : List (String × Int)} {x : Int × String} :
    x ∈ (buildHeaps bal).1 ↔ (x.2, x.1) ∈ bal ∧ x.1 < -1 := by
  rw [(buildHeaps_fst_perm bal).mem_iff]
  constructor
  · intro hx
    rcases List.mem_map.mp hx with ⟨pa, hpa, hxe⟩
    rcases List.mem_filter.mp hpa with ⟨hmem, hcond⟩
    cases x
    cases pa
    cases hxe
    exact ⟨hmem, by simpa using hcond⟩
  · rintro ⟨hmem, hcond⟩
    exact List.mem_map.mpr ⟨(x.2, x.1), List.mem_filter.mpr ⟨hmem, by simpa using hcond⟩, rfl⟩

theorem buildHeaps_snd_mem {bal : List (String × Int)} {x : Int × String} :
    x ∈ (buildHeaps bal).2 ↔ (x.2, -x.1) ∈ bal ∧ x.1 < -1 := by
  rw [(buildHeaps_snd_perm bal).mem_iff]
  constructor
  · intro hx
    rcases List.mem_map.mp hx with ⟨pa, hpa, hxe⟩
    rcases List.mem_filter.mp hpa with ⟨hmem, hcond⟩
    cases x
    cases pa
    cases hxe
    refine ⟨by simpa using hmem, by simp at hcond ⊢; omega⟩
  · rintro ⟨hmem, hcond⟩
    refine List.mem_map.mpr ⟨(x.2, -x.1), List.mem_filter.mpr ⟨hmem, by simp; omega⟩, by simp⟩

theorem buildHeaps_fst_length (bal : List (String × Int)) :
    (buildHeaps bal).1.length = bal.countP (fun pa => pa.2 < -1) := by
  rw [(buildHeaps_fst_perm bal).length_eq, List.length_map, List.countP_eq_length_filter]

theorem buildHeaps_snd_length (bal : List (String × Int)) :
    (buildHeaps bal).2.length = bal.countP (fun pa => 1 < pa.2) := by
  rw [(buildHeaps_snd_perm bal).length_eq, List.length_map, List.countP_eq_length_filter]

/-! ### Helper lemmas: balance lookup -/

theorem lookup_eq_of_mem {bal : List (String × Int)} {p : String} {a : Int}
    (hnd : (bal.map Prod.fst).Nodup) (hmem : (p, a) ∈ bal) : bal.lookup p = some a := by
  induction bal with
  | nil => simp at hmem
  | cons pa bal ih =>
    obtain ⟨q, b⟩ := pa
    simp only [List.map_cons, List.nodup_cons] at hnd
    rcases List.mem_cons.mp hmem with h | h
    · obtain ⟨rfl, rfl⟩ := Prod.mk.injEq .. ▸ h
      · simp [List.lookup]
    · have hpq : (p == q) = false := by
        refine beq_eq_false_iff_ne.mpr ?_
        intro he
        subst he
        exact hnd.1 (List.mem_map.mpr ⟨(p, a), h, rfl⟩)
      simp only [List.lookup, hpq]
      exact ih hnd.2 h

theorem mem_of_lookup_eq {bal : List (String × Int)} {p : String} {a : Int}
    (h : bal.lookup p = some a) : (p, a) ∈ bal := by
  induction bal with
  | nil => simp [List.lookup] at h
  | cons pa bal ih =>
    obtain ⟨q, b⟩ := pa
    by_cases hpq : p = q
    · subst hpq
      simp [List.lookup] at h
      simp [h]
    · have hpq' : (p == q) = false := beq_eq_false_iff_ne.mpr hpq
      simp only [List.lookup, hpq'] at h
      exact List.mem_cons_of_mem _ (ih h)

/-! ### The settlement invariant -/

theorem simplifyLoop_settles (fuel : Nat) :
    ∀ (d c : List (Int × String)) (f : String → Int),
      d.length + c.length ≤ fuel →
      (∀ x ∈ d, x.1 < -1 ∧ f x.2 = x.1) →
      (∀ x ∈ c, x.1 < -1 ∧ f x.2 = -x.1) →
      (d.map Prod.snd ++ c.map Prod.snd).Nodup →
      (∀ p, p ∉ d.map Prod.snd → p ∉ c.map Prod.snd → -1 ≤ f p ∧ f p ≤ 1) →
      (∀ p, -1 ≤ applyTxs f (simplifyLoop fuel d c) p) ∨
        (∀ p, applyTxs f (simplifyLoop fuel d c) p ≤ 1) := by
  induction fuel with
  | zero =>
    intro d c f hfuel hd hc hnd hout
    have hd0 : d = [] := List.length_eq_zero.mp (by omega)
    have hc0 : c = [] := List.length_eq_zero.mp (by omega)
    subst hd0
    subst hc0
    left
    intro p
    exact (hout p (by simp) (by simp)).1
  | succ fuel ih =>
    intro d c f hfuel hd hc hnd hout
    cases d with
    | nil =>
      rw [simplifyLoop_nil_left]
      left
      intro p
      by_cases hp : p ∈ c.map Prod.snd
      · rcases List.mem_map.mp hp with ⟨x, hx, rfl⟩
        have h1 := hc x hx
        show -1 ≤ f x.2
        omega
      · exact (hout p (by simp) hp).1
    | cons dh ds =>
      cases c with
      | nil =>
        rw [simplifyLoop_nil_right]
        right
        intro p
        by_cases hp : p ∈ (dh :: ds).map Prod.snd
        · rcases List.mem_map.mp hp with ⟨x, hx, rfl⟩
          have h1 := hd x hx
          show f x.2 ≤ 1
          omega
        · exact (hout p hp (by simp)).2
      | cons ch cs =>
        obtain ⟨da, dp⟩ := dh
        obtain ⟨ca, cp⟩ := ch
        rw [simplifyLoop_cons]
        set A := min (-da) (-ca) with hA
        have hda := hd (da, dp) (List.mem_cons_self _ _)
        have hca := hc (ca, cp) (List.mem_cons_self _ _)
        simp only at hda hca
        have hnds := hnd
        simp only [List.map_cons, List.cons_append, List.nodup_cons, List.mem_append,
          List.mem_cons, not_or, List.nodup_append] at hnds
        obtain ⟨⟨hdp_ds, hdp_cp, hdp_cs⟩, hds_nd, ⟨hcp_cs, hcs_nd⟩, hdisj⟩ := hnds
        have hcp_ds : cp ∉ ds.map Prod.snd := fun h => hdisj h (List.mem_cons_self _ _)
        have hdisj' : ∀ q, q ∈ ds.map Prod.snd → q ∉ cs.map Prod.snd := fun q hq hq2 =>
          hdisj hq (List.mem_cons_of_mem _ hq2)
        have hAda : A ≤ -da := by rw [hA]; exact min_le_left _ _
        have hAca : A ≤ -ca := by rw [hA]; exact min_le_right _ _
        have hAz : da + A = 0 ∨ ca + A = 0 := by
          rcases le_total (-da) (-ca) with h | h
          · have h1 : A = -da := by rw [hA]; exact min_eq_left h
            left; omega
          · have h1 : A = -ca := by rw [hA]; exact min_eq_right h
            right; omega
        have hf'other : ∀ q, q ≠ dp → q ≠ cp →
            applyTx f { from_ := dp, to_ := cp, amount := A } q = f q := by
          intro q h1 h2
          simp [applyTx, h1, h2]
        have hf'dp : applyTx f { from_ := dp, to_ := cp, amount := A } dp = da + A := by
          simp [applyTx, hdp_cp, hda.2]
        have hf'cp : applyTx f { from_ := dp, to_ := cp, amount := A } cp = -ca - A := by
          have h2 : cp ≠ dp := Ne.symm hdp_cp
          simp [applyTx, h2, hca.2]
        simp only [List.length_cons] at hfuel
        have hds_sub : ∀ y q, q ∈ ds.map Prod.snd → q ∈ (heapPush y ds).map Prod.snd := by
          intro y q hq
          rcases List.mem_map.mp hq with ⟨x, hx, rfl⟩
          exact List.mem_map_of_mem _ (heapPush_mem.mpr (Or.inr hx))
        have hcs_sub : ∀ y q, q ∈ cs.map Prod.snd → q ∈ (heapPush y cs).map Prod.snd := by
          intro y q hq
          rcases List.mem_map.mp hq with ⟨x, hx, rfl⟩
          exact List.mem_map_of_mem _ (heapPush_mem.mpr (Or.inr hx))
        by_cases hrd : da + A < -1 <;> by_cases hrc : ca + A < -1
        · exact absurd hAz (by omega)
        · -- debtor pushed back, creditor settled
          rw [if_pos hrd, if_neg hrc]
          simp only [applyTxs]
          refine ih _ _ _ ?_ ?_ ?_ ?_ ?_
          · rw [heapPush_length]; omega
          · intro x hx
            rcases heapPush_mem.mp hx with rfl | hx
            · exact ⟨hrd, by rw [hf'dp]⟩
            · have h1 := hd x (List.mem_cons_of_mem _ hx)
              have hxdp : x.2 ≠ dp := fun he =>
                hdp_ds (he ▸ List.mem_map_of_mem _ hx)
              have hxcp : x.2 ≠ cp := fun he =>
                hcp_ds (he ▸ List.mem_map_of_mem _ hx)
              exact ⟨h1.1, by rw [hf'other x.2 hxdp hxcp]; exact h1.2⟩
          · intro x hx
            have h1 := hc x (List.mem_cons_of_mem _ hx)
            have hxdp : x.2 ≠ dp := fun he =>
              hdp_cs (he ▸ List.mem_map_of_mem _ hx)
            have hxcp : x.2 ≠ cp := fun he =>
              hcp_cs (he ▸ List.mem_map_of_mem _ hx)
            exact ⟨h1.1, by rw [hf'other x.2 hxdp hxcp]; exact h1.2⟩
          · have hperm : List.Perm ((heapPush (da + A, dp) ds).map Prod.snd ++ cs.map Prod.snd)
                (dp :: (ds.map Prod.snd ++ cs.map Prod.snd)) :=
              ((heapPush_perm _ _).map Prod.snd).append_right _
            refine hperm.nodup_iff.mpr ?_
            rw [List.nodup_cons]
            refine ⟨by simp [hdp_ds, hdp_cs], ?_⟩
            rw [List.nodup_append]
            exact ⟨hds_nd, hcs_nd, fun q hq => hdisj' q hq⟩
          · intro p hp1 hp2
            have hpdp : p ≠ dp := by
              intro he
              subst he
              exact hp1 (List.mem_map_of_mem _ (heapPush_mem.mpr (Or.inl rfl)))
            by_cases hpcp : p = cp
            · subst hpcp
              rw [hf'cp]
              omega
            · rw [hf'other p hpdp hpcp]
              refine hout p ?_ ?_
              · simp only [List.map_cons, List.mem_cons, not_or]
                exact ⟨hpdp, fun h => hp1 (hds_sub _ _ h)⟩
              · simp only [List.map_cons, List.mem_cons, not_or]
                exact ⟨hpcp, hp2⟩
        · -- debtor settled, creditor pushed back
          rw [if_neg hrd, if_pos hrc]
          simp only [applyTxs]
          refine ih _ _ _ ?_ ?_ ?_ ?_ ?_
          · rw [heapPush_length]; omega
          · intro x hx
            have h1 := hd x (List.mem_cons_of_mem _ hx)
            have hxdp : x.2 ≠ dp := fun he =>
              hdp_ds (he ▸ List.mem_map_of_mem _ hx)
            have hxcp : x.2 ≠ cp := fun he =>
              hcp_ds (he ▸ List.mem_map_of_mem _ hx)
            exact ⟨h1.1, by rw [hf'other x.2 hxdp hxcp]; exact h1.2⟩
          · intro x hx
            rcases heapPush_mem.mp hx with rfl | hx
            · exact ⟨hrc, by rw [hf'cp]; ring⟩
            · have h1 := hc x (List.mem_cons_of_mem _ hx)
              have hxdp : x.2 ≠ dp := fun he =>
                hdp_cs (he ▸ List.mem_map_of_mem _ hx)
              have hxcp : x.2 ≠ cp := fun he =>
                hcp_cs (he ▸ List.mem_map_of_mem _ hx)
              exact ⟨h1.1, by rw [hf'other x.2 hxdp hxcp]; exact h1.2⟩
          · have hperm : List.Perm (ds.map Prod.snd ++ (heapPush (ca + A, cp) cs).map Prod.snd)
                (ds.map Prod.snd ++ cp :: cs.map Prod.snd) :=
              List.Perm.append_left _ ((heapPush_perm _ _).map Prod.snd)
            refine hperm.nodup_iff.mpr ?_
            rw [List.nodup_append]
            refine ⟨hds_nd, ?_, ?_⟩
            · rw [List.nodup_cons]
              exact ⟨hcp_cs, hcs_nd⟩
            · intro q hq hq2
              rcases List.mem_cons.mp hq2 with he | hq2
              · exact hcp_ds (he ▸ hq)
              · exact hdisj' q hq hq2
          · intro p hp1 hp2
            have hpcp : p ≠ cp := by
              intro he
              subst he
              exact hp2 (List.mem_map_of_mem _ (heapPush_mem.mpr (Or.inl rfl)))
            by_cases hpdp : p = dp
            · subst hpdp
              rw [hf'dp]
              omega
            · rw [hf'other p hpdp hpcp]
              refine hout p ?_ ?_
              · simp only [List.map_cons, List.mem_cons, not_or]
                exact ⟨hpdp, hp1⟩
              · simp only [List.map_cons, List.mem_cons, not_or]
                exact ⟨hpcp, fun h => hp2 (hcs_sub _ _ h)⟩
        · -- both settled
          rw [if_neg hrd, if_neg hrc]
          simp only [applyTxs]
          refine ih _ _ _ ?_ ?_ ?_ ?_ ?_
          · omega
          · intro x hx
            have h1 := hd x (List.mem_cons_of_mem _ hx)
            have hxdp : x.2 ≠ dp := fun he =>
              hdp_ds (he ▸ List.mem_map_of_mem _ hx)
            have hxcp : x.2 ≠ cp := fun he =>
              hcp_ds (he ▸ List.mem_map_of_mem _ hx)
            exact ⟨h1.1, by rw [hf'other x.2 hxdp hxcp]; exact h1.2⟩
          · intro x hx
            have h1 := hc x (List.mem_cons_of_mem _ hx)
            have hxdp : x.2 ≠ dp := fun he =>
              hdp_cs (he ▸ List.mem_map_of_mem _ hx)
            have hxcp : x.2 ≠ cp := fun he =>
              hcp_cs (he ▸ List.mem_map_of_mem _ hx)
            exact ⟨h1.1, by rw [hf'other x.2 hxdp hxcp]; exact h1.2⟩
          · rw [List.nodup_append]
            exact ⟨hds_nd, hcs_nd, fun q hq => hdisj' q hq⟩
          · intro p hp1 hp2
            by_cases hpdp : p = dp
            · subst hpdp
              rw [hf'dp]
              omega
            · by_cases hpcp : p = cp
              · subst hpcp
                rw [hf'cp]
                omega
              · rw [hf'other p hpdp hpcp]
                refine hout p ?_ ?_
                · simp only [List.map_cons, List.mem_cons, not_or]
                  exact ⟨hpdp, hp1⟩
                · simp only [List.map_cons, List.mem_cons, not_or]
                  exact ⟨hpcp, hp2⟩

/-! ### Helper lemmas: loop iteration facts -/

theorem min_residual_zero (da ca : Int) :
    da + min (-da) (-ca) = 0 ∨ ca + min (-da) (-ca) = 0 := by
  rcases le_total (-da) (-ca) with h | h
  · have h1 : min (-da) (-ca) = -da := min_eq_left h
    left; omega
  · have h1 : min (-da) (-ca) = -ca := min_eq_right h
    right; omega

theorem simplifyLoop_length (fuel : Nat) :
    ∀ d c : List (Int × String), d.length + c.length ≤ fuel → 1 ≤ d.length + c.length →
      (simplifyLoop fuel d c).length + 1 ≤ d.length + c.length := by
  induction fuel with
  | zero => intro d c h1 h2; omega
  | succ fuel ih =>
    intro d c h1 h2
    cases d with
    | nil =>
      rw [simplifyLoop_nil_left]
      simpa using h2
    | cons dh ds =>
      cases c with
      | nil =>
        rw [simplifyLoop_nil_right]
        simp
      | cons ch cs =>
        obtain ⟨da, dp⟩ := dh
        obtain ⟨ca, cp⟩ := ch
        rw [simplifyLoop_cons]
        simp only [List.length_cons] at h1 ⊢
        have hz := min_residual_zero da ca
        have key : ∀ DS CS : List (Int × String), DS.length + CS.length ≤ fuel →
            DS.length + CS.length ≤ ds.length + cs.length + 1 →
            (simplifyLoop fuel DS CS).length + 1 + 1 ≤ ds.length + 1 + (cs.length + 1) := by
          intro DS CS hf hb
          rcases Nat.eq_zero_or_pos (DS.length + CS.length) with h0 | hpos
          · have hDS : DS = [] := List.length_eq_zero.mp (by omega)
            subst hDS
            rw [simplifyLoop_nil_left]
            simp only [List.length_nil]
            omega
          · have := ih DS CS hf hpos
            omega
        by_cases hrd : da + min (-da) (-ca) < -1 <;>
          by_cases hrc : ca + min (-da) (-ca) < -1
        · exact absurd hz (by omega)
        · rw [if_pos hrd, if_neg hrc]
          exact key _ _ (by rw [heapPush_length]; omega) (by rw [heapPush_length]; omega)
        · rw [if_neg hrd, if_pos hrc]
          exact key _ _ (by rw [heapPush_length]; omega) (by rw [heapPush_length]; omega)
        · rw [if_neg hrd, if_neg hrc]
          exact key _ _ (by omega) (by omega)

theorem simplifyLoop_fuel_independent (fuel1 : Nat) :
    ∀ (fuel2 : Nat) (d c : List (Int × String)),
      d.length + c.length ≤ fuel1 → d.length + c.length ≤ fuel2 →
      simplifyLoop fuel1 d c = simplifyLoop fuel2 d c := by
  induction fuel1 with
  | zero =>
    intro fuel2 d c h1 _
    have hd0 : d = [] := List.length_eq_zero.mp (by omega)
    subst hd0
    rw [simplifyLoop_nil_left, simplifyLoop_nil_left]
  | succ fuel1 ih =>
    intro fuel2 d c h1 h2
    cases d with
    | nil => rw [simplifyLoop_nil_left, simplifyLoop_nil_left]
    | cons dh ds =>
      cases c with
      | nil => rw [simplifyLoop_nil_right, simplifyLoop_nil_right]
      | cons ch cs =>
        cases fuel2 with
        | zero =>
          simp only [List.length_cons] at h2
          omega
        | succ fuel2 =>
          obtain ⟨da, dp⟩ := dh
          obtain ⟨ca, cp⟩ := ch
          rw [simplifyLoop_cons, simplifyLoop_cons]
          simp only [List.length_cons] at h1 h2
          have hz := min_residual_zero da ca
          congr 1
          by_cases hrd : da + min (-da) (-ca) < -1 <;>
            by_cases hrc : ca + min (-da) (-ca) < -1
          · exact absurd hz (by omega)
          · rw [if_pos hrd, if_neg hrc]
            exact ih _ _ _ (by rw [heapPush_length]; omega) (by rw [heapPush_length]; omega)
          · rw [if_neg hrd, if_pos hrc]
            exact ih _ _ _ (by rw [heapPush_length]; omega) (by rw [heapPush_length]; omega)
          · rw [if_neg hrd, if_neg hrc]
            exact ih _ _ _ (by omega) (by omega)

theorem simplifyLoop_amount_ge (fuel : Nat) :
    ∀ d c : List (Int × String), (∀ x ∈ d, x.1 < -1) → (∀ x ∈ c, x.1 < -1) →
      ∀ tx ∈ simplifyLoop fuel d c, 2 ≤ tx.amount := by
  induction fuel with
  | zero =>
    intro d c _ _ tx htx
    simp [simplifyLoop] at htx
  | succ fuel ih =>
    intro d c hd hc tx htx
    cases d with
    | nil =>
      rw [simplifyLoop_nil_left] at htx
      simp at htx
    | cons dh ds =>
      cases c with
      | nil =>
        rw [simplifyLoop_nil_right] at htx
        simp at htx
      | cons ch cs =>
        obtain ⟨da, dp⟩ := dh
        obtain ⟨ca, cp⟩ := ch
        rw [simplifyLoop_cons] at htx
        have hda := hd _ (List.mem_cons_self _ _)
        have hca := hc _ (List.mem_cons_self _ _)
        simp only at hda hca
        have hhead : 2 ≤ min (-da) (-ca) := le_min (by omega) (by omega)
        have htail : ∀ x ∈ ds, x.1 < -1 := fun x hx => hd x (List.mem_cons_of_mem _ hx)
        have hctail : ∀ x ∈ cs, x.1 < -1 := fun x hx => hc x (List.mem_cons_of_mem _ hx)
        by_cases hrd : da + min (-da) (-ca) < -1 <;>
          by_cases hrc : ca + min (-da) (-ca) < -1 <;>
          [rw [if_pos hrd, if_pos hrc] at htx; rw [if_pos hrd, if_neg hrc] at htx;
            rw [if_neg hrd, if_pos hrc] at htx; rw [if_neg hrd, if_neg hrc] at htx] <;>
          rcases List.mem_cons.mp htx with rfl | htx2
        · exact hhead
        · refine ih _ _ ?_ ?_ tx htx2
          · intro x hx
            rcases heapPush_mem.mp hx with rfl | hx
            · exact hrd
            · exact htail x hx
          · intro x hx
            rcases heapPush_mem.mp hx with rfl | hx
            · exact hrc
            · exact hctail x hx
        · exact hhead
        · refine ih _ _ ?_ hctail tx htx2
          intro x hx
          rcases heapPush_mem.mp hx with rfl | hx
          · exact hrd
          · exact htail x hx
        · exact hhead
        · refine ih _ _ htail ?_ tx htx2
          intro x hx
          rcases heapPush_mem.mp hx with rfl | hx
          · exact hrc
          · exact hctail x hx
        · exact hhead
        · exact ih _ _ htail hctail tx htx2

theorem foldl_push_settled (bal : List (String × Int)) :
    ∀ d c : List (Int × String), (∀ pa ∈ bal, pa.2.natAbs ≤ 1) →
      bal.foldl pushBalance (d, c) = (d, c) := by
  induction bal with
  | nil => intro d c _; rfl
  | cons pa bal ih =>
    intro d c h
    have h1 := h pa (List.mem_cons_self _ _)
    have hpb : pushBalance (d, c) pa = (d, c) := by
      have h2 : ¬ pa.2 < -1 := by omega
      have h3 : ¬ 1 < pa.2 := by omega
      simp [pushBalance, h2, h3]
    rw [List.foldl_cons, hpb]
    exact ih d c (fun x hx => h x (List.mem_cons_of_mem _ hx))

/-! ### Helper lemmas: balance aggregation -/

theorem addToBalances_sum (bal : List (String × Int)) (u : String) (d : Int) :
    ((addToBalances bal u d).map Prod.snd).sum = (bal.map Prod.snd).sum + d := by
  induction bal with
  | nil => simp [addToBalances]
  | cons pa bal ih =>
    obtain ⟨q, v⟩ := pa
    by_cases h : q = u
    · simp only [addToBalances, if_pos h, List.map_cons, List.sum_cons]
      ring
    · simp only [addToBalances, if_neg h, List.map_cons, List.sum_cons, ih]
      ring

theorem foldl_applySplit_sum (splits : List Split) :
    ∀ bal : List (String × Int),
      ((splits.foldl applySplit bal).map Prod.snd).sum =
        (bal.map Prod.snd).sum + (splits.map (fun s => s.paid_amount - s.owed_amount)).sum := by
  induction splits with
  | nil => intro bal; simp
  | cons s splits ih =>
    intro bal
    rw [List.foldl_cons, ih]
    simp only [applySplit, addToBalances_sum, List.map_cons, List.sum_cons]
    ring

theorem foldl_expenses_sum (expenses : List (List Split)) :
    ∀ bal : List (String × Int),
      ((expenses.foldl (fun bal splits => splits.foldl applySplit bal) bal).map Prod.snd).sum =
        (bal.map Prod.snd).sum +
          (expenses.map (fun exp => (exp.map (fun s => s.paid_amount - s.owed_amount)).sum)).sum := by
  induction expenses with
  | nil => intro bal; simp
  | cons exp expenses ih =>
    intro bal
    rw [List.foldl_cons, ih, foldl_applySplit_sum]
    simp only [List.map_cons, List.sum_cons]
    ring

theorem sum_map_sub (l : List Split) :
    (l.map (fun s => s.paid_amount - s.owed_amount)).sum =
      (l.map (fun s => s.paid_amount)).sum - (l.map (fun s => s.owed_amount)).sum := by
  induction l with
  | nil => simp
  | cons s l ih =>
    simp only [List.map_cons, List.sum_cons, ih]
    ring

/-! ### Glue: heap contents of the partition phase -/

theorem buildHeaps_persons_nodup (bal : List (String × Int))
    (hnd : (bal.map Prod.fst).Nodup) :
    ((buildHeaps bal).1.map Prod.snd ++ (buildHeaps bal).2.map Prod.snd).Nodup := by
  have p1 : List.Perm ((buildHeaps bal).1.map Prod.snd)
      ((bal.filter (fun pa => pa.2 < -1)).map Prod.fst) := by
    have h := (buildHeaps_fst_perm bal).map Prod.snd
    rw [List.map_map] at h
    exact h
  have p2 : List.Perm ((buildHeaps bal).2.map Prod.snd)
      ((bal.filter (fun pa => 1 < pa.2)).map Prod.fst) := by
    have h := (buildHeaps_snd_perm bal).map Prod.snd
    rw [List.map_map] at h
    exact h
  have hA : ((bal.filter (fun pa => pa.2 < -1)).map Prod.fst).Nodup :=
    List.Nodup.sublist (List.Sublist.map Prod.fst (List.filter_sublist bal)) hnd
  have hB : ((bal.filter (fun pa => 1 < pa.2)).map Prod.fst).Nodup :=
    List.Nodup.sublist (List.Sublist.map Prod.fst (List.filter_sublist bal)) hnd
  have hdisj : List.Disjoint ((bal.filter (fun pa => pa.2 < -1)).map Prod.fst)
      ((bal.filter (fun pa => 1 < pa.2)).map Prod.fst) := by
    intro q hq1 hq2
    rcases List.mem_map.mp hq1 with ⟨x, hx1, hxq⟩
    rcases List.mem_map.mp hq2 with ⟨y, hy1, hyq⟩
    rcases List.mem_filter.mp hx1 with ⟨hx1m, hx1c⟩
    rcases List.mem_filter.mp hy1 with ⟨hy1m, hy1c⟩
    obtain ⟨xa, xb⟩ := x
    obtain ⟨ya, yb⟩ := y
    simp only at hxq hyq
    simp only [decide_eq_true_eq] at hx1c hy1c
    subst hxq
    subst hyq
    have l1 := lookup_eq_of_mem hnd hx1m
    have l2 := lookup_eq_of_mem hnd hy1m
    rw [l1] at l2
    have : xb = yb := by injection l2
    omega
  exact ((p1.append p2).nodup_iff).mpr (hA.append hB hdisj)

/-! ### The claims -/

/-- C1 — counterexample.  The claim states that for every balance mapping,
applying every transaction emitted by `simplify_debts` leaves every
participant within the 1-unit threshold of zero.  On the (zero-sum) mapping
`{A: -5, B: 2, C: -4, D: 3, E: 4}` the loop emits `A→E 4` and `C→D 3`
(A is dropped at residual `-1` and E at `0`, then C and D likewise) and
then stops with the debtors queue empty, leaving B's balance at `2 > 1`. -/
theorem C1_counterexample :
    1 < applyTxs (balanceOf [("A", -5), ("B", 2), ("C", -4), ("D", 3), ("E", 4)])
      (simplify_debts [("A", -5), ("B", 2), ("C", -4), ("D", 3), ("E", 4)]) "B" := by
  decide

/-- C1 (amended): for every balance mapping with distinct participants,
applying every transaction emitted by `simplify_debts` (debtor `+= amount`,
creditor `-= amount`) drives all balances within the threshold on at least
one side: afterwards either no participant is below `-1` (all debtors
settled) or no participant is above `1` (all creditors settled).  Full
two-sided settlement fails in general because parties inside the threshold
never enter a queue yet their counterparties may remain unmatched. -/
theorem C1_settlement_one_sided (bal : List (String × Int))
    (hnd : (bal.map Prod.fst).Nodup) :
    (∀ p, -1 ≤ applyTxs (balanceOf bal) (simplify_debts bal) p) ∨
      (∀ p, applyTxs (balanceOf bal) (simplify_debts bal) p ≤ 1) := by
  have hd : ∀ x ∈ (buildHeaps bal).1, x.1 < -1 ∧ balanceOf bal x.2 = x.1 := by
    intro x hx
    have h1 := buildHeaps_fst_mem.mp hx
    exact ⟨h1.2, by simp [balanceOf, lookup_eq_of_mem hnd h1.1]⟩
  have hc : ∀ x ∈ (buildHeaps bal).2, x.1 < -1 ∧ balanceOf bal x.2 = -x.1 := by
    intro x hx
    have h1 := buildHeaps_snd_mem.mp hx
    exact ⟨h1.2, by simp [balanceOf, lookup_eq_of_mem hnd h1.1]⟩
  have hout : ∀ p, p ∉ (buildHeaps bal).1.map Prod.snd →
      p ∉ (buildHeaps bal).2.map Prod.snd →
      -1 ≤ balanceOf bal p ∧ balanceOf bal p ≤ 1 := by
    intro p hp1 hp2
    cases hl : bal.lookup p with
    | none => simp [balanceOf, hl]
    | some a =>
      have hm := mem_of_lookup_eq hl
      have hba : balanceOf bal p = a := by simp [balanceOf, hl]
      rw [hba]
      by_cases ha1 : a < -1
      · exact absurd
          (List.mem_map_of_mem Prod.snd ((@buildHeaps_fst_mem bal (a, p)).mpr ⟨hm, ha1⟩)) hp1
      · by_cases ha2 : 1 < a
        · refine absurd
            (List.mem_map_of_mem Prod.snd ((@buildHeaps_snd_mem bal (-a, p)).mpr ?_)) hp2
          exact ⟨by simpa using hm, by omega⟩
        · omega
  exact simplifyLoop_settles _ _ _ _ le_rfl hd hc (buildHeaps_persons_nodup bal hnd) hout

/-- C1 — witness for the amended theorem at a concrete input. -/
theorem C1_settlement_one_sided_witness :
    -1 ≤ applyTxs (balanceOf [("A", -3), ("B", 2)]) (simplify_debts [("A", -3), ("B", 2)]) "A" ∨
      applyTxs (balanceOf [("A", -3), ("B", 2)]) (simplify_debts [("A", -3), ("B", 2)]) "A" ≤ 1 := by
  rcases C1_settlement_one_sided [("A", -3), ("B", 2)] (by decide) with h | h
  · exact Or.inl (h "A")
  · exact Or.inr (h "A")

/-- C2 — counterexample.  The claim states that the allocations always sum
to exactly the total.  At `total = 2 ^ 54 - 1`, `weights = [1, 255]` the
float division of line 105 rounds both shares up past their floors
(`(2 ^ 54 - 1) / 256` is a round-half-even tie at `2 ^ 46 - 1/256`), the
shares `[2 ^ 46, 255 * 2 ^ 46]` sum to `2 ^ 54 > total`, the Python
remainder is `-1` (empty `range`, no redistribution), and the result sums
to `2 ^ 54 ≠ total`. -/
theorem C2_counterexample :
    0 < ([1, 255] : List Nat).sum ∧
      distribute_amount (2 ^ 54 - 1) [1, 255] = some [2 ^ 46, 255 * 2 ^ 46] ∧
      ([2 ^ 46, 255 * 2 ^ 46] : List Nat).sum ≠ 2 ^ 54 - 1 := by
  decide

/-- C2 (amended): for every total and every weight list with positive sum
in which each product `total * w` is at most `2 ^ 52` — so each share's
correctly rounded float division truncates to the exact floor
(`pyIntDiv_eq_div`); every realistic monetary input qualifies —
`distribute_amount` succeeds and its allocations sum to exactly the
total.  Beyond that range the float shares can overshoot the floors and
the result sum can differ from the total (`C2_counterexample`). -/
theorem C2_allocation_sum (total_cents : Nat) (weights : List Nat)
    (h1 : 0 < weights.sum) (h2 : ∀ w ∈ weights, total_cents * w ≤ 2 ^ 52) :
    (distribute_amount total_cents weights).map List.sum = some total_cents := by
  rw [distribute_amount_of_bounded total_cents weights h1 h2]
  have h3 := shares_sum_le total_cents weights h1
  have h4 := shares_sum_lower total_cents weights h1
  have h5 : total_cents - (provisionalShares total_cents weights).sum ≤ weights.length := by
    omega
  have h6 : (addRemainder (total_cents - (provisionalShares total_cents weights).sum)
      (provisionalShares total_cents weights)).sum = total_cents := by
    rw [addRemainder_sum, provisionalShares_length, min_eq_left h5]
    omega
  simp [h6]

/-- C2 — witness for the amended theorem at a concrete input. -/
theorem C2_allocation_sum_witness :
    (distribute_amount 100 [1, 1, 1]).map List.sum = some 100 :=
  C2_allocation_sum 100 [1, 1, 1] (by decide) (by decide)

/-- C3 — counterexample.  The claim states that a zero-weight position
always receives 0.  But `distribute_amount 101 [0, 1, 1]` computes shares
`[0, 50, 50]` (all three float divisions are exact here) and then gives
the leftover unit to position 0 — whose weight is 0 — returning
`[1, 50, 50]`. -/
theorem C3_counterexample :
    ([0, 1, 1] : List Nat).get? 0 = some 0 ∧ 0 < ([0, 1, 1] : List Nat).sum ∧
      distribute_amount 101 [0, 1, 1] = some [1, 50, 50] := by
  decide

/-- C3 (amended): whenever each product `total * w` is at most `2 ^ 52`
(the range where the float shares are exactly the floors, which includes
all monetary inputs), a zero-weight position's share is 0, so it receives
exactly one unit if its index is below the remainder
`total - sum(floored shares)` (the positional remainder hand-out ignores
weights) and exactly 0 otherwise; in particular it receives at most 1
unit, not always 0. -/
theorem C3_zero_weight_bounded (total_cents : Nat) (weights : List Nat) (i : Nat)
    (hw : weights.get? i = some 0) (h1 : 0 < weights.sum)
    (h2 : ∀ w ∈ weights, total_cents * w ≤ 2 ^ 52) :
    ∀ l, distribute_amount total_cents weights = some l →
      l.get? i = some (if i < total_cents - (provisionalShares total_cents weights).sum
        then 1 else 0) := by
  intro l hl
  rw [distribute_amount_of_bounded total_cents weights h1 h2] at hl
  injection hl with hl
  subst hl
  rw [addRemainder_get?]
  have hp : (provisionalShares total_cents weights).get? i = some 0 := by
    unfold provisionalShares
    rw [List.get?_map, hw]
    simp
  rw [hp]
  rcases Nat.lt_or_ge i (total_cents - (provisionalShares total_cents weights).sum) with
    hir | hir
  · rw [if_pos hir]
    simp [hir]
  · rw [if_neg (by omega)]
    simp [Nat.not_lt.mpr hir]

/-- C3 — witness for the amended theorem at a concrete input. -/
theorem C3_zero_weight_bounded_witness :
    ([1, 50, 50] : List Nat).get? 0 =
      some (if 0 < 101 - (provisionalShares 101 [0, 1, 1]).sum then 1 else 0) :=
  C3_zero_weight_bounded 101 [0, 1, 1] 0 (by decide) (by decide) (by decide)
    [1, 50, 50] (by decide)

/-- C4 — counterexample.  The claim states `0 ≤ remainder < N`, so the
one-unit hand-out writes only in bounds.  At `total = 2 ^ 54 + 2`,
`weights = [1]` the float quotient `(2 ^ 54 + 2) / 1` is a
round-half-even tie that rounds down to `2 ^ 54`, so the share sum is
`2 ^ 54`, the remainder is `2 > N = 1`, and the loop's
`amounts[1] += 1` raises `IndexError` (the model's `none`). -/
theorem C4_counterexample :
    0 < ([1] : List Nat).sum ∧
      pyShares (2 ^ 54 + 2) ([1] : List Nat).sum [1] = some [2 ^ 54] ∧
      ([1] : List Nat).length < (2 ^ 54 + 2) - (2 : Nat) ^ 54 ∧
      distribute_amount (2 ^ 54 + 2) [1] = none := by
  decide

/-- C4 (amended): whenever each product `total * w` is at most `2 ^ 52`
(the range where every float share truncates to its exact floor; all
monetary inputs qualify), the floored shares sum to at most the total,
the remainder `total - sum(shares)` is below the number of weights,
`distribute_amount` succeeds — returning the shares with the remainder
handed out one unit at a time from position 0 — and every position of the
result is its floored share plus exactly one unit when its index is below
the remainder, unchanged otherwise (in input order).  Outside that range
the remainder can be negative or exceed `N`, where the program raises
`IndexError` (`C4_counterexample`). -/
theorem C4_remainder_in_bounds (total_cents : Nat) (weights : List Nat)
    (h1 : 0 < weights.sum) (h2 : ∀ w ∈ weights, total_cents * w ≤ 2 ^ 52) :
    (provisionalShares total_cents weights).sum ≤ total_cents ∧
      total_cents - (provisionalShares total_cents weights).sum < weights.length ∧
      distribute_amount total_cents weights =
        some (addRemainder (total_cents - (provisionalShares total_cents weights).sum)
          (provisionalShares total_cents weights)) ∧
      ∀ l, distribute_amount total_cents weights = some l →
        ∀ i, l.get? i = ((provisionalShares total_cents weights).get? i).map
          (fun a => if i < total_cents - (provisionalShares total_cents weights).sum
            then a + 1 else a) := by
  have h3 := shares_sum_le total_cents weights h1
  have h4 := shares_sum_lower total_cents weights h1
  have h5 := distribute_amount_of_bounded total_cents weights h1 h2
  refine ⟨h3, by omega, h5, ?_⟩
  intro l hl i
  rw [h5] at hl
  injection hl with hl
  subst hl
  rw [addRemainder_get?]

/-- C4 — witness for the amended theorem at a concrete input. -/
theorem C4_remainder_in_bounds_witness :
    (provisionalShares 100 [1, 1, 1]).sum ≤ 100 ∧
      100 - (provisionalShares 100 [1, 1, 1]).sum < ([1, 1, 1] : List Nat).length ∧
      distribute_amount 100 [1, 1, 1] =
        some (addRemainder (100 - (provisionalShares 100 [1, 1, 1]).sum)
          (provisionalShares 100 [1, 1, 1])) ∧
      ([34, 33, 33] : List Nat).get? 0 =
        ((provisionalShares 100 [1, 1, 1]).get? 0).map
          (fun a => if 0 < 100 - (provisionalShares 100 [1, 1, 1]).sum then a + 1 else a) := by
  obtain ⟨ha, hb, hcm, hd⟩ := C4_remainder_in_bounds 100 [1, 1, 1] (by decide) (by decide)
  exact ⟨ha, hb, hcm, hd [34, 33, 33] (by decide) 0⟩

/-- C5: `simplify_debts` terminates.  (1) In every iteration the emitted
amount `min (-debt, -credit)` zeroes at least one popped residual, so (2)
that party is not pushed back and the combined queue size strictly
decreases; consequently (3) the loop reaches the one-queue-empty state
within any fuel of at least the combined queue size (the result does not
depend on the fuel beyond that bound — `simplify_debts` supplies exactly
the combined size). -/
theorem C5_queue_shrinks_and_loop_completes :
    (∀ debt_amt credit_amt : Int,
      debt_amt + min (-debt_amt) (-credit_amt) = 0 ∨
        credit_amt + min (-debt_amt) (-credit_amt) = 0) ∧
    (∀ (debt_amt credit_amt : Int) (debtor creditor : String)
        (ds cs : List (Int × String)),
      (if debt_amt + min (-debt_amt) (-credit_amt) < -1 then
          heapPush (debt_amt + min (-debt_amt) (-credit_amt), debtor) ds else ds).length +
        (if credit_amt + min (-debt_amt) (-credit_amt) < -1 then
          heapPush (credit_amt + min (-debt_amt) (-credit_amt), creditor) cs else cs).length <
        ((debt_amt, debtor) :: ds).length + ((credit_amt, creditor) :: cs).length) ∧
    (∀ (fuel1 fuel2 : Nat) (d c : List (Int × String)),
      d.length + c.length ≤ fuel1 → d.length + c.length ≤ fuel2 →
      simplifyLoop fuel1 d c = simplifyLoop fuel2 d c) := by
  refine ⟨fun da ca => min_residual_zero da ca, ?_, ?_⟩
  · intro da ca dp cp ds cs
    have hz := min_residual_zero da ca
    simp only [List.length_cons]
    by_cases hrd : da + min (-da) (-ca) < -1 <;>
      by_cases hrc : ca + min (-da) (-ca) < -1
    · exact absurd hz (by omega)
    · rw [if_pos hrd, if_neg hrc, heapPush_length]
      omega
    · rw [if_neg hrd, if_pos hrc, heapPush_length]
      omega
    · rw [if_neg hrd, if_neg hrc]
      omega
  · intro fuel1 fuel2 d c h1 h2
    exact simplifyLoop_fuel_independent fuel1 fuel2 d c h1 h2

/-- C5 — witness: the loop result is fuel-independent at a concrete input. -/
theorem C5_queue_shrinks_witness :
    simplifyLoop 2 [((-5 : Int), "A")] [((-3 : Int), "B")] =
      simplifyLoop 9 [((-5 : Int), "A")] [((-3 : Int), "B")] :=
  C5_queue_shrinks_and_loop_completes.2.2 2 9 _ _ (by decide) (by decide)

/-- C6 — counterexample.  The claimed bound
`count ≤ #creditors + #debtors - 1` fails on the empty balance mapping:
the count is 0 but the bound is `-1`. -/
theorem C6_counterexample :
    ¬ (((simplify_debts ([] : List (String × Int))).length : Int) ≤
        ((([] : List (String × Int)).countP (fun pa => 1 < pa.2) : Int) +
          (([] : List (String × Int)).countP (fun pa => pa.2 < -1) : Int) - 1)) := by
  decide

/-- C6 (amended): whenever at least one participant lies outside the
threshold (so at least one queue is non-empty), the number of emitted
transactions is at most `#creditors + #debtors - 1`, where debtors have
balance `< -1` and creditors have balance `> 1`. -/
theorem C6_transaction_bound (bal : List (String × Int))
    (h : 1 ≤ bal.countP (fun pa => pa.2 < -1) + bal.countP (fun pa => 1 < pa.2)) :
    ((simplify_debts bal).length : Int) ≤
      ((bal.countP (fun pa => 1 < pa.2) : Int) +
        (bal.countP (fun pa => pa.2 < -1) : Int) - 1) := by
  have h1 := buildHeaps_fst_length bal
  have h2 := buildHeaps_snd_length bal
  have h3 := simplifyLoop_length ((buildHeaps bal).1.length + (buildHeaps bal).2.length)
    (buildHeaps bal).1 (buildHeaps bal).2 le_rfl (by omega)
  unfold simplify_debts
  omega

/-- C6 — witness for the amended theorem at a concrete input. -/
theorem C6_transaction_bound_witness :
    ((simplify_debts [("A", -5), ("B", 5)]).length : Int) ≤
      ((([("A", -5), ("B", 5)] : List (String × Int)).countP (fun pa => 1 < pa.2) : Int) +
        (([("A", -5), ("B", 5)] : List (String × Int)).countP (fun pa => pa.2 < -1) : Int) -
          1) :=
  C6_transaction_bound [("A", -5), ("B", 5)] (by decide)

/-- C7: if every expense record's paid total equals its owed total, the
balances accumulated by `get_balances` sum to exactly 0. -/
theorem C7_balances_zero_sum (expenses : List (List Split))
    (h : ∀ exp ∈ expenses, (exp.map (fun s => s.paid_amount)).sum =
      (exp.map (fun s => s.owed_amount)).sum) :
    ((get_balances expenses).map Prod.snd).sum = 0 := by
  unfold get_balances
  rw [foldl_expenses_sum]
  simp only [List.map_nil, List.sum_nil, zero_add]
  apply List.sum_eq_zero
  intro x hx
  rcases List.mem_map.mp hx with ⟨exp, hexp, rfl⟩
  rw [sum_map_sub, h exp hexp]
  ring

/-- C7 — witness at a concrete balanced record. -/
theorem C7_balances_zero_sum_witness :
    ((get_balances [[⟨"A", 900, 300⟩, ⟨"B", 0, 300⟩, ⟨"C", 0, 300⟩]]).map Prod.snd).sum = 0 :=
  C7_balances_zero_sum [[⟨"A", 900, 300⟩, ⟨"B", 0, 300⟩, ⟨"C", 0, 300⟩]] (by decide)

/-- C8 — the code accepts a record whose payer total differs from the
stated total by exactly one unit (a mismatch `> 0` but within the `> 1`
tolerance of the guard), returning success instead of rejecting it:
`create_expense` with `total = 100`, payer splits summing to 101 and ower
splits summing to 100 returns `True`. -/
theorem C8_accepts_one_unit_mismatch :
    (create_expense 100 [("u1", 101)] [("u1", 100)]).1 = true ∧
      (([("u1", (101 : Int))] : List (String × Int)).map Prod.snd).sum - 100 ≠ 0 := by
  decide

/-- C9: `simplify_debts` of the empty mapping is the empty sequence, and on
any mapping whose balances all have absolute value at most 1 (the
threshold is inclusive) it returns the empty sequence rather than an
error. -/
theorem C9_settled_returns_empty :
    simplify_debts ([] : List (String × Int)) = [] ∧
      ∀ bal : List (String × Int),
        (∀ pa ∈ bal, pa.2.natAbs ≤ 1) → simplify_debts bal = [] := by
  refine ⟨rfl, ?_⟩
  intro bal h
  have hb : buildHeaps bal = ([], []) := foldl_push_settled bal [] [] h
  unfold simplify_debts
  rw [hb]
  rfl

/-- C9 — witness at the spec's example `{a: 0, b: 1}`. -/
theorem C9_settled_returns_empty_witness :
    simplify_debts [("a", 0), ("b", 1)] = [] :=
  C9_settled_returns_empty.2 [("a", 0), ("b", 1)] (by decide)

/-- C10: every transaction emitted by `simplify_debts` has amount at least
2 minor units — strictly above the 1-unit threshold — since only balances
of magnitude above 1 enter either queue and every emitted amount is the
minimum of two such magnitudes. -/
theorem C10_amounts_at_least_two (bal : List (String × Int)) :
    ∀ tx ∈ simplify_debts bal, 2 ≤ tx.amount := by
  intro tx htx
  unfold simplify_debts at htx
  refine simplifyLoop_amount_ge _ _ _ ?_ ?_ tx htx
  · intro x hx
    exact (buildHeaps_fst_mem.mp hx).2
  · intro x hx
    exact (buildHeaps_snd_mem.mp hx).2

/-- C10 — witness at a concrete input. -/
theorem C10_amounts_at_least_two_witness :
    2 ≤ ({ from_ := "A", to_ := "B", amount := 5 } : Tx).amount :=
  C10_amounts_at_least_two [("A", -5), ("B", 5)]
    { from_ := "A", to_ := "B", amount := 5 } (by decide)
